import Mathlib

/-
Verification of the pile-capacity calculation engine (app.py).

The numeric model: Python floats are idealised as rationals (ℚ).  The
constant `np.pi` is carried as an explicit parameter `piV` of every
function that uses it, since no verified property depends on its value
(only, occasionally, on its sign, which appears as a hypothesis).
`float("inf")`, used as the synthetic bottom depth of the deepest layer,
is modelled by `Option ℚ` with `none` standing for plus infinity.
Python's stable `sorted` is modelled by `List.insertionSort`, which is a
stable sort, hence extensionally identical to it.
-/

namespace PileCalc

/-- A geological unit as supplied by the caller: `top_depth`,
`skin_friction`, `end_bearing` (the display name is dropped here; it is
kept in the mutation model `LayerRec` below). -/
structure SoilUnit where
  top_depth : ℚ
  skin_friction : ℚ
  end_bearing : ℚ
deriving DecidableEq

/-- Comparison `x < bottom` where `bottom` may be `+∞` (`none`),
modelling `seg_mid < unit["bottom_depth"]` with `float("inf")`. -/
def ltO (x : ℚ) : Option ℚ → Prop
  | none => True
  | some b => x < b

instance (x : ℚ) : (b : Option ℚ) → Decidable (ltO x b)
  | none => isTrue trivial
  | some b => inferInstanceAs (Decidable (x < b))

@[simp] theorem ltO_none (x : ℚ) : ltO x none := trivial

@[simp] theorem ltO_some (x b : ℚ) : ltO x (some b) ↔ x < b := Iff.rfl

/-- The `Dummy` zero-resistance unit inserted above the shallowest layer
(app.py lines 228-237). -/
def dummyUnit : SoilUnit := ⟨0, 0, 0⟩

/-- The loop body of `calculate_3d_embedment_eb` (app.py lines 170-214):
walk the sorted units carrying `previous_EB`; each unit's bottom is the
next unit's top, or `+∞` for the last.  The branch structure, including
the unreachable re-check of `embed_in_unit >= embed_length` inside the
thin-layer branch, is kept exactly as in the source. -/
def calc3dAux (toe embedLen : ℚ) : ℚ → List SoilUnit → ℚ
  | prev, [] => prev
  | prev, u :: rest =>
    if toe < u.top_depth then
      prev
    else if u.top_depth ≤ toe ∧ ltO toe ((rest.head?).map SoilUnit.top_depth) then
      (if toe - u.top_depth < embedLen then
        (if prev < u.end_bearing ∧ 0 < u.end_bearing then prev else 0)
      else
        (if prev < u.end_bearing ∧ 0 < u.end_bearing then u.end_bearing else u.end_bearing))
    else
      match (rest.head?).map SoilUnit.top_depth with
      | none => calc3dAux toe embedLen prev rest
      | some bv =>
        if bv ≤ toe then
          calc3dAux toe embedLen
            (if embedLen ≤ bv - u.top_depth then
              (if prev < u.end_bearing ∧ 0 < u.end_bearing then u.end_bearing else u.end_bearing)
            else
              (if prev < u.end_bearing ∧ 0 < u.end_bearing then
                (if embedLen ≤ bv - u.top_depth then u.end_bearing else prev)
              else u.end_bearing)) rest
        else calc3dAux toe embedLen prev rest

/-- Definition `calculate_3d_embedment_eb(toe_depth, diameter, sorted_units)`:
`embed_length = 3 * diameter`, `previous_EB = 0.0` (app.py lines 148-214). -/
def calculate_3d_embedment_eb (toe_depth diameter : ℚ) (sorted_units : List SoilUnit) : ℚ :=
  calc3dAux toe_depth (3 * diameter) 0 sorted_units

/-- The sort key order used by `sorted(units, key=lambda u: u["top_depth"])`. -/
def leTop (a b : SoilUnit) : Prop := a.top_depth ≤ b.top_depth

instance : DecidableRel leTop := fun x y => inferInstanceAs (Decidable (x.top_depth ≤ y.top_depth))

instance : IsTotal SoilUnit leTop := ⟨fun a b => le_total a.top_depth b.top_depth⟩

instance : IsTrans SoilUnit leTop := ⟨fun _ _ _ h h' => le_trans h h'⟩

/-- Model of `sorted(units, key=lambda u: u["top_depth"])` (app.py line 227): a
stable sort by `top_depth`. -/
def sortUnits (units : List SoilUnit) : List SoilUnit :=
  List.insertionSort leTop units

/-- app.py lines 227-237: sort, then prepend the `Dummy` unit when the
shallowest sorted unit starts below depth 0. -/
def normalizeUnits (units : List SoilUnit) : List SoilUnit :=
  match sortUnits units with
  | [] => []
  | u :: rest => if 0 < u.top_depth then dummyUnit :: u :: rest else u :: rest

/-- app.py lines 239-243: attach to every unit its `bottom_depth`, the
next unit's `top_depth`, or `+∞` (`none`) for the last unit. -/
def withBottoms : List SoilUnit → List (SoilUnit × Option ℚ)
  | [] => []
  | u :: rest => (u, (rest.head?).map SoilUnit.top_depth) :: withBottoms rest

/-- The linear search `unit["top_depth"] <= x < unit["bottom_depth"]`
over the units, first hit wins (app.py lines 256-259 and 270-273). -/
def findUnit (x : ℚ) : List (SoilUnit × Option ℚ) → Option SoilUnit
  | [] => none
  | (u, b) :: rest => if u.top_depth ≤ x ∧ ltO x b then some u else findUnit x rest

/-- Constant `increment = 0.5` metres (app.py line 246). -/
def increment : ℚ := 0.5

/-- Count `segments = int(np.ceil(length / increment))` (app.py line 247). -/
def numSegments (length : ℚ) : ℕ := (⌈length / increment⌉).toNat

/-- One iteration of the skin-friction loop (app.py lines 249-263):
contribution of segment `seg`. -/
def segFriction (piV diameter length : ℚ) (su : List (SoilUnit × Option ℚ)) (seg : ℕ) : ℚ :=
  let segTop : ℚ := (seg : ℚ) * increment
  let segBot : ℚ := min (((seg : ℚ) + 1) * increment) length
  let segMid : ℚ := (segTop + segBot) / 2
  let segLen : ℚ := segBot - segTop
  match findUnit segMid su with
  | some u => u.skin_friction * (piV * diameter) * segLen
  | none => 0

/-- Total `total_friction` accumulated over all segments (app.py lines 248-263). -/
def totalFriction (piV diameter length : ℚ) (su : List (SoilUnit × Option ℚ)) : ℚ :=
  ((List.range (numSegments length)).map (segFriction piV diameter length su)).sum

/-- app.py lines 269-275: the unit containing the toe, falling back to
`sorted_units[-1]` when the search fails. -/
def toeUnit (toe : ℚ) (su : List (SoilUnit × Option ℚ)) : Option SoilUnit :=
  match findUnit toe su with
  | some u => some u
  | none => (su.getLast?).map Prod.fst

/-- The end-bearing force component (app.py lines 265-286), for a given
normalized unit list: effective end bearing times
`area_base = np.pi * (diameter / 2) ** 2`. -/
def endBearingComp (piV diameter toe : ℚ) (sorted_units : List SoilUnit)
    (three_d_embed : Bool) : ℚ :=
  match toeUnit toe (withBottoms sorted_units) with
  | none => 0
  | some tu =>
    (if three_d_embed then calculate_3d_embedment_eb toe diameter sorted_units
     else tu.end_bearing) * (piV * (diameter / 2) ^ 2)

/-- Definition `calculate_capacity` (app.py lines 217-289), with `np.pi` as the
parameter `piV`. -/
def calculate_capacity (piV diameter length : ℚ) (units : List SoilUnit)
    (reduction_factor : ℚ) (three_d_embed skin_friction_only : Bool) : ℚ :=
  let sorted_units := normalizeUnits units
  let total_friction := totalFriction piV diameter length (withBottoms sorted_units)
  let end_bearing :=
    if skin_friction_only then 0
    else endBearingComp piV diameter length sorted_units three_d_embed
  (total_friction + end_bearing) * reduction_factor

/-! ## C1: 3D-embedment resolution at the layer containing the toe -/

/-- C1: in 3D-embedment mode, when the toe lies within a layer
(`top_depth ≤ toe < bottom_depth`, the bottom being the next layer's top
or `+∞`), with `embed_depth = toe - top_depth`: if `embed_depth < 3 * diameter`
the resolver returns `previous_EB` when the layer's `end_bearing` exceeds both
`previous_EB` and `0`, and `0` otherwise; if `embed_depth ≥ 3 * diameter` it
returns the layer's own `end_bearing` regardless of `previous_EB`.  Resolution
terminates at this layer: the result does not look past it. -/
theorem c1_toe_within_layer (toe d prev : ℚ) (u : SoilUnit) (rest : List SoilUnit)
    (htop : u.top_depth ≤ toe) (hbot : ltO toe ((rest.head?).map SoilUnit.top_depth)) :
    calc3dAux toe (3 * d) prev (u :: rest) =
      if toe - u.top_depth < 3 * d then
        (if prev < u.end_bearing ∧ 0 < u.end_bearing then prev else 0)
      else u.end_bearing := by
  simp only [calc3dAux]
  rw [if_neg (not_lt.mpr htop), if_pos ⟨htop, hbot⟩]
  by_cases hlt : toe - u.top_depth < 3 * d
  · rw [if_pos hlt, if_pos hlt]
  · rw [if_neg hlt, if_neg hlt, ite_self]

/-- Witness for C1 at `toe = 4`, `diameter = 1`, `previous_EB = 5`,
layer `⟨2, 0, 10⟩` with bottom `7`: the hypotheses hold and the equation
is produced by the theorem. -/
theorem c1_toe_within_layer_witness :
    ((⟨2, 0, 10⟩ : SoilUnit).top_depth ≤ 4 ∧
      ltO 4 ((([⟨7, 0, 0⟩] : List SoilUnit).head?).map SoilUnit.top_depth)) ∧
    calc3dAux 4 (3 * 1) 5 [⟨2, 0, 10⟩, ⟨7, 0, 0⟩] =
      (if 4 - (⟨2, 0, 10⟩ : SoilUnit).top_depth < 3 * 1 then
        (if 5 < (⟨2, 0, 10⟩ : SoilUnit).end_bearing ∧ 0 < (⟨2, 0, 10⟩ : SoilUnit).end_bearing
          then 5 else 0)
      else (⟨2, 0, 10⟩ : SoilUnit).end_bearing) :=
  ⟨⟨by decide, by decide⟩,
    c1_toe_within_layer 4 1 5 ⟨2, 0, 10⟩ [⟨7, 0, 0⟩] (by decide) (by decide)⟩

/-! ## C2: 3D-embedment update for layers passed entirely -/

/-- C2: in 3D-embedment mode, for a layer the toe has passed entirely
through (`toe ≥ bottom_depth`, the bottom being the next layer's top),
with `embed_in_unit = bottom_depth - top_depth`: when
`embed_in_unit ≥ 3 * diameter`, `previous_EB` is unconditionally updated to
the layer's `end_bearing`; when `embed_in_unit < 3 * diameter`, it is updated
to the layer's `end_bearing` exactly when that `end_bearing` is `≤ previous_EB`
or is `0`, and left unchanged otherwise; and when the toe exceeds every
layer's bottom (the unit list is exhausted) the final `previous_EB` is
returned. -/
theorem c2_toe_below_layer :
    (∀ (toe d prev : ℚ) (u r : SoilUnit) (rest : List SoilUnit),
      u.top_depth ≤ toe → r.top_depth ≤ toe → 0 ≤ u.end_bearing →
      calc3dAux toe (3 * d) prev (u :: r :: rest) =
        calc3dAux toe (3 * d)
          (if 3 * d ≤ r.top_depth - u.top_depth then u.end_bearing
           else if u.end_bearing ≤ prev ∨ u.end_bearing = 0 then u.end_bearing else prev)
          (r :: rest)) ∧
    (∀ (toe d prev : ℚ), calc3dAux toe (3 * d) prev [] = prev) := by
  constructor
  · intro toe d prev u r rest htop hbot heb
    have hBiff : ¬(prev < u.end_bearing ∧ 0 < u.end_bearing) ↔
        (u.end_bearing ≤ prev ∨ u.end_bearing = 0) := by
      constructor
      · intro h
        rcases not_and_or.mp h with h | h
        · exact Or.inl (not_lt.mp h)
        · exact Or.inr (le_antisymm (not_lt.mp h) heb)
      · rintro (h | h) hc
        · exact absurd hc.1 (not_lt.mpr h)
        · rw [h] at hc
          exact lt_irrefl 0 hc.2
    have hprev :
        (if 3 * d ≤ r.top_depth - u.top_depth then
          (if prev < u.end_bearing ∧ 0 < u.end_bearing then u.end_bearing else u.end_bearing)
        else
          (if prev < u.end_bearing ∧ 0 < u.end_bearing then
            (if 3 * d ≤ r.top_depth - u.top_depth then u.end_bearing else prev)
          else u.end_bearing)) =
        (if 3 * d ≤ r.top_depth - u.top_depth then u.end_bearing
         else if u.end_bearing ≤ prev ∨ u.end_bearing = 0 then u.end_bearing else prev) := by
      by_cases h3 : 3 * d ≤ r.top_depth - u.top_depth
      · rw [if_pos h3, if_pos h3, ite_self]
      · rw [if_neg h3, if_neg h3, if_neg h3]
        by_cases hA : prev < u.end_bearing ∧ 0 < u.end_bearing
        · rw [if_pos hA, if_neg (fun hB => hBiff.mpr hB hA)]
        · rw [if_neg hA, if_pos (hBiff.mp hA)]
    simp only [calc3dAux, List.head?_cons, Option.map_some']
    rw [if_neg (not_lt.mpr htop),
      if_neg (fun hc => absurd ((ltO_some toe r.top_depth).mp hc.2) (not_lt.mpr hbot)),
      if_pos hbot, hprev]
  · intro toe d prev
    rfl

/-- Witness for C2: a passed-through thin layer `⟨0, 0, 5⟩` with bottom `2`
under toe `10`, `diameter = 1`, `previous_EB = 7`, and the empty-list case. -/
theorem c2_toe_below_layer_witness :
    ((⟨0, 0, 5⟩ : SoilUnit).top_depth ≤ 10 ∧ (⟨2, 0, 9⟩ : SoilUnit).top_depth ≤ 10 ∧
      (0 : ℚ) ≤ (⟨0, 0, 5⟩ : SoilUnit).end_bearing) ∧
    calc3dAux 10 (3 * 1) 7 [⟨0, 0, 5⟩, ⟨2, 0, 9⟩] =
      calc3dAux 10 (3 * 1)
        (if 3 * 1 ≤ (⟨2, 0, 9⟩ : SoilUnit).top_depth - (⟨0, 0, 5⟩ : SoilUnit).top_depth
          then (⟨0, 0, 5⟩ : SoilUnit).end_bearing
         else if (⟨0, 0, 5⟩ : SoilUnit).end_bearing ≤ 7 ∨ (⟨0, 0, 5⟩ : SoilUnit).end_bearing = 0
          then (⟨0, 0, 5⟩ : SoilUnit).end_bearing else 7)
        [⟨2, 0, 9⟩] ∧
    calc3dAux 10 (3 * 1) 7 [] = 7 :=
  ⟨⟨by decide, by decide, by decide⟩,
    c2_toe_below_layer.1 10 1 7 ⟨0, 0, 5⟩ ⟨2, 0, 9⟩ [] (by decide) (by decide) (by decide),
    c2_toe_below_layer.2 10 1 7⟩

/-! ## Helper lemmas about the normalized profile -/

theorem sortUnits_perm (units : List SoilUnit) : List.Perm (sortUnits units) units :=
  List.perm_insertionSort leTop units

theorem sortUnits_sorted (units : List SoilUnit) : List.Sorted leTop (sortUnits units) :=
  List.sorted_insertionSort leTop units

/-- Stability of the sort: for each key value, the sublist of units with
that `top_depth` is returned in its original order. -/
theorem sortUnits_filter_key (units : List SoilUnit) (t : ℚ) :
    (sortUnits units).filter (fun u => decide (u.top_depth = t)) =
      units.filter (fun u => decide (u.top_depth = t)) := by
  have hpair : (units.filter (fun u => decide (u.top_depth = t))).Pairwise leTop := by
    refine List.pairwise_of_forall_mem_list ?_
    intro a ha b hb
    have ha' : a.top_depth = t := of_decide_eq_true (List.mem_filter.mp ha).2
    have hb' : b.top_depth = t := of_decide_eq_true (List.mem_filter.mp hb).2
    exact le_of_eq (ha'.trans hb'.symm)
  have hsub : List.Sublist (units.filter (fun u => decide (u.top_depth = t))) (sortUnits units) :=
    List.sublist_insertionSort hpair (List.filter_sublist units)
  have hsub2 : List.Sublist (units.filter (fun u => decide (u.top_depth = t)))
      ((sortUnits units).filter (fun u => decide (u.top_depth = t))) := by
    have h2 := hsub.filter (fun u => decide (u.top_depth = t))
    rw [List.filter_filter] at h2
    simpa only [Bool.and_self] using h2
  have hlen : ((sortUnits units).filter (fun u => decide (u.top_depth = t))).length =
      (units.filter (fun u => decide (u.top_depth = t))).length :=
    ((sortUnits_perm units).filter (fun u => decide (u.top_depth = t))).length_eq
  exact (hsub2.eq_of_length hlen.symm).symm

theorem normalizeUnits_pairwise (units : List SoilUnit) :
    (normalizeUnits units).Pairwise (fun a b => a.top_depth ≤ b.top_depth) := by
  have hs : List.Sorted leTop (sortUnits units) := sortUnits_sorted units
  unfold normalizeUnits
  split
  · exact List.Pairwise.nil
  · rename_i u rest heq
    rw [heq] at hs
    by_cases h : 0 < u.top_depth
    · rw [if_pos h]
      refine List.Pairwise.cons ?_ hs
      intro b hb
      rcases List.mem_cons.mp hb with rfl | hb
      · exact le_of_lt h
      · exact le_of_lt (lt_of_lt_of_le h (List.rel_of_sorted_cons hs b hb))
    · rw [if_neg h]
      exact hs

theorem normalizeUnits_eq_dummy (units : List SoilUnit)
    (h : units ≠ [] ∧ ∀ u ∈ units, 0 < u.top_depth) :
    normalizeUnits units = dummyUnit :: sortUnits units := by
  unfold normalizeUnits
  split
  · rename_i heq
    have hperm := sortUnits_perm units
    rw [heq] at hperm
    exact absurd hperm.symm.eq_nil h.1
  · rename_i u rest heq
    have humem : u ∈ sortUnits units := by
      rw [heq]
      exact List.mem_cons_self u rest
    rw [if_pos (h.2 u ((sortUnits_perm units).mem_iff.mp humem)), ← heq]

theorem normalizeUnits_eq_sort (units : List SoilUnit)
    (h : ¬(units ≠ [] ∧ ∀ u ∈ units, 0 < u.top_depth)) :
    normalizeUnits units = sortUnits units := by
  unfold normalizeUnits
  split
  · rename_i heq
    exact heq.symm
  · rename_i u rest heq
    have hne : units ≠ [] := by
      intro hnil
      rw [hnil] at heq
      exact List.cons_ne_nil u rest (by simpa [sortUnits, List.insertionSort] using heq.symm)
    rcases not_and_or.mp h with h1 | h2
    · exact absurd hne h1
    · push_neg at h2
      obtain ⟨w, hw, hw0⟩ := h2
      have hwsort : w ∈ sortUnits units := (sortUnits_perm units).mem_iff.mpr hw
      have hs : List.Sorted leTop (sortUnits units) := sortUnits_sorted units
      rw [heq] at hwsort hs
      have hle : u.top_depth ≤ w.top_depth := by
        rcases List.mem_cons.mp hwsort with rfl | hmem
        · exact le_refl _
        · exact List.rel_of_sorted_cons hs w hmem
      rw [if_neg (by exact fun hpos => absurd (lt_of_lt_of_le hpos hle) (not_lt.mpr hw0)), ← heq]

theorem withBottoms_adjacent : ∀ (l : List SoilUnit) (i : ℕ) (p q : SoilUnit × Option ℚ),
    (withBottoms l)[i]? = some p → (withBottoms l)[i+1]? = some q → p.2 = some q.1.top_depth
  | [], i, p, q, hp, _ => by simp [withBottoms] at hp
  | u :: rest, 0, p, q, hp, hq => by
    rw [withBottoms, List.getElem?_cons_zero] at hp
    rw [withBottoms, List.getElem?_cons_succ] at hq
    cases rest with
    | nil => simp [withBottoms] at hq
    | cons v rest2 =>
      rw [withBottoms, List.getElem?_cons_zero] at hq
      cases hp
      cases hq
      rfl
  | u :: rest, i + 1, p, q, hp, hq => by
    rw [withBottoms, List.getElem?_cons_succ] at hp
    rw [withBottoms, List.getElem?_cons_succ] at hq
    exact withBottoms_adjacent rest i p q hp hq

theorem withBottoms_getLast? : ∀ (l : List SoilUnit) (p : SoilUnit × Option ℚ),
    (withBottoms l).getLast? = some p → p.2 = none
  | [], p, hp => by simp [withBottoms] at hp
  | [u], p, hp => by
    simp only [withBottoms, List.head?_nil, Option.map_none', List.getLast?_singleton,
      Option.some.injEq] at hp
    rw [← hp]
  | u :: v :: rest, p, hp => by
    rw [withBottoms, withBottoms, List.getLast?_cons_cons] at hp
    exact withBottoms_getLast? (v :: rest) p (by rw [withBottoms]; exact hp)

/-! ## C5: profile normalization invariants -/

/-- C5: after normalization the unit sequence is sorted ascending by
`top_depth`; the sort is stable (a permutation that preserves, for every
key value `t`, the original relative order of units with `top_depth = t`);
the synthetic `Dummy` layer (`top_depth = 0`, `skin_friction = 0`,
`end_bearing = 0`) is prepended exactly when the input is non-empty and
its shallowest `top_depth` is positive; and the derived bottoms satisfy
`bottom_depth[i] = top_depth[i+1]` with the last bottom being `+∞`
(`none`). -/
theorem c5_normalization_invariants (units : List SoilUnit) :
    (normalizeUnits units).Pairwise (fun a b => a.top_depth ≤ b.top_depth)
    ∧ List.Perm (sortUnits units) units
    ∧ (∀ t : ℚ, (sortUnits units).filter (fun u => decide (u.top_depth = t)) =
        units.filter (fun u => decide (u.top_depth = t)))
    ∧ ((units ≠ [] ∧ ∀ u ∈ units, 0 < u.top_depth) →
        normalizeUnits units = dummyUnit :: sortUnits units)
    ∧ (¬(units ≠ [] ∧ ∀ u ∈ units, 0 < u.top_depth) →
        normalizeUnits units = sortUnits units)
    ∧ (∀ (i : ℕ) (p q : SoilUnit × Option ℚ),
        (withBottoms (normalizeUnits units))[i]? = some p →
        (withBottoms (normalizeUnits units))[i+1]? = some q → p.2 = some q.1.top_depth)
    ∧ (∀ p : SoilUnit × Option ℚ,
        (withBottoms (normalizeUnits units)).getLast? = some p → p.2 = none) :=
  ⟨normalizeUnits_pairwise units, sortUnits_perm units, sortUnits_filter_key units,
    normalizeUnits_eq_dummy units, normalizeUnits_eq_sort units,
    withBottoms_adjacent (normalizeUnits units), withBottoms_getLast? (normalizeUnits units)⟩

/-- Witness for C5 on the two-unit profile `[⟨5, 1, 2⟩, ⟨3, 4, 6⟩]`: the
dummy-prepend condition holds and the theorem yields the normalized form. -/
theorem c5_normalization_invariants_witness :
    (([⟨5, 1, 2⟩, ⟨3, 4, 6⟩] : List SoilUnit) ≠ [] ∧
      ∀ u ∈ ([⟨5, 1, 2⟩, ⟨3, 4, 6⟩] : List SoilUnit), 0 < u.top_depth) ∧
    normalizeUnits [⟨5, 1, 2⟩, ⟨3, 4, 6⟩] = dummyUnit :: sortUnits [⟨5, 1, 2⟩, ⟨3, 4, 6⟩] :=
  ⟨⟨by decide, by decide⟩,
    (c5_normalization_invariants [⟨5, 1, 2⟩, ⟨3, 4, 6⟩]).2.2.2.1 ⟨by decide, by decide⟩⟩

/-! ## Spec-side definitions (written from the spec's words, for the
refinement claims C3 and C4) -/

/-- Modelled on the spec wording of `layerAt` (spec 4.1): the layer whose
half-open interval `[top_depth, bottom_depth)` contains `depth`; when no
interval contains it, fall back to the deepest layer. -/
def specLayerAt (su : List (SoilUnit × Option ℚ)) (depth : ℚ) : Option SoilUnit :=
  match findUnit depth su with
  | some u => some u
  | none => (su.getLast?).map Prod.fst

/-- Modelled on the claimed formula for the skin-friction component
(spec 4.2): with `h = 0.5` and `n = ceil(length / h)`, the sum over
`k < n` of `layerAt((k*h + min((k+1)*h, length)) / 2).skin_friction
* (pi * diameter) * (min((k+1)*h, length) - k*h)`. -/
def specFrictionSum (piV diameter length : ℚ) (su : List (SoilUnit × Option ℚ)) : ℚ :=
  ((List.range (⌈length / (0.5 : ℚ)⌉).toNat).map (fun (k : ℕ) =>
    (Option.map SoilUnit.skin_friction
        (specLayerAt su (((k : ℚ) * (0.5 : ℚ) + min (((k : ℚ) + 1) * (0.5 : ℚ)) length) / 2))).getD 0
      * (piV * diameter) * (min (((k : ℚ) + 1) * (0.5 : ℚ)) length - (k : ℚ) * (0.5 : ℚ)))).sum

/-! ## Coverage of the layer search on a normalized profile -/

theorem findUnit_cons_covers : ∀ (rest : List SoilUnit) (u : SoilUnit) (x : ℚ),
    u.top_depth ≤ x → ∃ w, findUnit x (withBottoms (u :: rest)) = some w
  | [], u, x, hx => ⟨u, by
    simp only [withBottoms, List.head?_nil, Option.map_none', findUnit]
    rw [if_pos ⟨hx, trivial⟩]⟩
  | v :: rest2, u, x, hx => by
    by_cases hv : x < v.top_depth
    · refine ⟨u, ?_⟩
      rw [withBottoms]
      simp only [List.head?_cons, Option.map_some', findUnit]
      rw [if_pos ⟨hx, (ltO_some x v.top_depth).mpr hv⟩]
    · obtain ⟨w, hw⟩ := findUnit_cons_covers rest2 v x (not_lt.mp hv)
      refine ⟨w, ?_⟩
      rw [withBottoms]
      simp only [List.head?_cons, Option.map_some', findUnit]
      rw [if_neg (fun hc => absurd ((ltO_some x v.top_depth).mp hc.2) hv)]
      exact hw

/-- The head of a sorted unit list bounds the `top_depth` of every input
unit from below. -/
theorem sortUnits_head_le (units : List SoilUnit) (u0 : SoilUnit) (rest : List SoilUnit)
    (heq : sortUnits units = u0 :: rest) (w : SoilUnit) (hw : w ∈ units) :
    u0.top_depth ≤ w.top_depth := by
  have hwsort : w ∈ sortUnits units := (sortUnits_perm units).mem_iff.mpr hw
  have hs := sortUnits_sorted units
  rw [heq] at hwsort hs
  rcases List.mem_cons.mp hwsort with rfl | hmem
  · exact le_refl _
  · exact List.rel_of_sorted_cons hs w hmem

/-- A non-empty normalized profile starts at a `top_depth` that is below
every non-negative depth. -/
theorem normalizeUnits_head_le (units : List SoilUnit) (hne : units ≠ []) :
    ∃ u0 rest, normalizeUnits units = u0 :: rest ∧ ∀ x : ℚ, 0 ≤ x → u0.top_depth ≤ x := by
  by_cases h : units ≠ [] ∧ ∀ u ∈ units, 0 < u.top_depth
  · exact ⟨dummyUnit, sortUnits units, normalizeUnits_eq_dummy units h, fun x hx => hx⟩
  · rcases not_and_or.mp h with h1 | h2
    · exact absurd hne h1
    · push_neg at h2
      obtain ⟨w, hw, hw0⟩ := h2
      cases hsu : sortUnits units with
      | nil =>
        have hperm := sortUnits_perm units
        rw [hsu] at hperm
        exact absurd hperm.symm.eq_nil hne
      | cons u0 rest =>
        refine ⟨u0, rest, by rw [normalizeUnits_eq_sort units h, hsu], fun x hx => ?_⟩
        exact le_trans (le_trans (sortUnits_head_le units u0 rest hsu w hw) hw0) hx

/-! ## Segment bounds -/

theorem seg_lt_length {L : ℚ} {k : ℕ} (hk : k < numSegments L) : (k : ℚ) * increment < L := by
  have h1 : ((k : ℕ) : ℤ) < ⌈L / increment⌉ := Int.lt_toNat.mp hk
  have h2 : ((k : ℕ) : ℚ) < L / increment := by exact_mod_cast Int.lt_ceil.mp h1
  have hinc : (0 : ℚ) < increment := by norm_num [increment]
  calc (k : ℚ) * increment < (L / increment) * increment :=
        mul_lt_mul_of_pos_right h2 hinc
    _ = L := div_mul_cancel₀ L (ne_of_gt hinc)

theorem segTop_le_segBot {L : ℚ} {k : ℕ} (hk : k < numSegments L) :
    (k : ℚ) * increment ≤ min (((k : ℚ) + 1) * increment) L := by
  refine le_min (mul_le_mul_of_nonneg_right (by linarith) (by norm_num [increment]))
    (le_of_lt (seg_lt_length hk))

theorem segMid_nonneg {L : ℚ} {k : ℕ} (hk : k < numSegments L) :
    0 ≤ ((k : ℚ) * increment + min (((k : ℚ) + 1) * increment) L) / 2 := by
  have h0 : (0 : ℚ) ≤ (k : ℚ) * increment :=
    mul_nonneg (Nat.cast_nonneg k) (by norm_num [increment])
  have h1 := segTop_le_segBot hk
  linarith

/-! ## C3: the skin-friction component equals the spec's segment sum -/

/-- C3: for a normalized non-empty profile and `length ≥ 0`, the code's
skin-friction component equals the spec's sum over segments of
`layerAt(seg_mid).skin_friction * (pi * diameter) * seg_len` with
`h = 0.5`, `n = ceil(length/h)` and the final segment truncated at
`length`; and at `length = 0` the component is `0`. -/
theorem c3_skin_friction_sum (piV d L : ℚ) (units : List SoilUnit)
    (hne : units ≠ []) (_hL : 0 ≤ L) :
    totalFriction piV d L (withBottoms (normalizeUnits units)) =
      specFrictionSum piV d L (withBottoms (normalizeUnits units))
    ∧ totalFriction piV d 0 (withBottoms (normalizeUnits units)) = 0 := by
  constructor
  · obtain ⟨u0, rest, hcons, hhead⟩ := normalizeUnits_head_le units hne
    rw [totalFriction, specFrictionSum,
      show (⌈L / (0.5 : ℚ)⌉).toNat = numSegments L from by rw [numSegments, increment]]
    refine congrArg List.sum (List.map_congr_left ?_)
    intro k hk
    have hkn : k < numSegments L := List.mem_range.mp hk
    have hmid0 : 0 ≤ ((k : ℚ) * increment + min (((k : ℚ) + 1) * increment) L) / 2 :=
      segMid_nonneg hkn
    obtain ⟨w, hw⟩ := findUnit_cons_covers rest u0
      (((k : ℚ) * increment + min (((k : ℚ) + 1) * increment) L) / 2)
      (hhead _ hmid0)
    rw [← hcons] at hw
    rw [segFriction, specLayerAt]
    rw [show ((k : ℚ) * (0.5 : ℚ) + min (((k : ℚ) + 1) * (0.5 : ℚ)) L) / 2 =
      ((k : ℚ) * increment + min (((k : ℚ) + 1) * increment) L) / 2 from by rw [increment],
      hw]
    simp only [Option.map_some', Option.getD_some, increment]
  · rw [totalFriction,
      show numSegments 0 = 0 from by
        rw [numSegments, zero_div]
        norm_num]
    rfl

/-- Witness for C3 on the single-unit profile `[⟨0, 10, 100⟩]` at
`length = 1`. -/
theorem c3_skin_friction_sum_witness :
    (([⟨0, 10, 100⟩] : List SoilUnit) ≠ [] ∧ (0 : ℚ) ≤ 1) ∧
    (totalFriction 3 1 1 (withBottoms (normalizeUnits [⟨0, 10, 100⟩])) =
      specFrictionSum 3 1 1 (withBottoms (normalizeUnits [⟨0, 10, 100⟩]))
    ∧ totalFriction 3 1 0 (withBottoms (normalizeUnits [⟨0, 10, 100⟩])) = 0) :=
  ⟨⟨by decide, by decide⟩, c3_skin_friction_sum 3 1 1 [⟨0, 10, 100⟩] (by decide) (by decide)⟩

/-! ## C4: simple-mode end bearing via the spec's layerAt -/

/-- C4: with `three_d_embed = false` and `skin_friction_only = false`,
the capacity decomposes so that the end-bearing force component is
`pi * (diameter/2)^2` times the `end_bearing` of the layer whose half-open
interval contains `toe_depth = length`, with the spec's fallback to the
deepest layer when no interval contains it (and `0` for an empty
profile, where no deepest layer exists). -/
theorem c4_simple_mode_end_bearing (piV d L : ℚ) (units : List SoilUnit) (rf : ℚ) :
    calculate_capacity piV d L units rf false false =
      (totalFriction piV d L (withBottoms (normalizeUnits units))
        + (Option.map SoilUnit.end_bearing
            (specLayerAt (withBottoms (normalizeUnits units)) L)).getD 0
          * (piV * (d / 2) ^ 2)) * rf := by
  rw [calculate_capacity, endBearingComp, toeUnit, specLayerAt]
  cases hfind : findUnit L (withBottoms (normalizeUnits units)) with
  | some u => simp
  | none =>
    cases hlast : (withBottoms (normalizeUnits units)).getLast? with
    | none => simp
    | some p => simp

/-! ## Structural lemmas about the resolver and the searches -/

/-- One-step unfolding of the resolver loop on a non-empty unit list,
with the redundant inner conditions of the source collapsed. -/
theorem calc3dAux_cons (toe el prev : ℚ) (u : SoilUnit) (rest : List SoilUnit) :
    calc3dAux toe el prev (u :: rest) =
      if toe < u.top_depth then prev
      else if u.top_depth ≤ toe ∧ ltO toe ((rest.head?).map SoilUnit.top_depth) then
        (if toe - u.top_depth < el then
          (if prev < u.end_bearing ∧ 0 < u.end_bearing then prev else 0)
        else u.end_bearing)
      else
        match (rest.head?).map SoilUnit.top_depth with
        | none => calc3dAux toe el prev rest
        | some bv =>
          if bv ≤ toe then
            calc3dAux toe el
              (if el ≤ bv - u.top_depth then u.end_bearing
               else (if prev < u.end_bearing ∧ 0 < u.end_bearing then prev else u.end_bearing))
              rest
          else calc3dAux toe el prev rest := by
  simp only [calc3dAux]
  by_cases h1 : toe < u.top_depth
  · rw [if_pos h1, if_pos h1]
  · rw [if_neg h1, if_neg h1]
    by_cases h2 : u.top_depth ≤ toe ∧ ltO toe ((rest.head?).map SoilUnit.top_depth)
    · rw [if_pos h2, if_pos h2]
      by_cases h3 : toe - u.top_depth < el
      · rw [if_pos h3, if_pos h3]
      · rw [if_neg h3, if_neg h3, ite_self]
    · rw [if_neg h2, if_neg h2]
      cases hb : (rest.head?).map SoilUnit.top_depth with
      | none => rfl
      | some bv =>
        dsimp only
        by_cases h4 : bv ≤ toe
        · have hXY :
              (if el ≤ bv - u.top_depth then
                (if prev < u.end_bearing ∧ 0 < u.end_bearing then u.end_bearing else u.end_bearing)
              else
                (if prev < u.end_bearing ∧ 0 < u.end_bearing then
                  (if el ≤ bv - u.top_depth then u.end_bearing else prev)
                else u.end_bearing)) =
              (if el ≤ bv - u.top_depth then u.end_bearing
               else (if prev < u.end_bearing ∧ 0 < u.end_bearing then prev
                 else u.end_bearing)) := by
            by_cases h5 : el ≤ bv - u.top_depth
            · rw [if_pos h5, if_pos h5, ite_self]
            · rw [if_neg h5, if_neg h5, if_neg h5]
          rw [if_pos h4, if_pos h4, hXY]
        · rw [if_neg h4, if_neg h4]

/-- The resolver returns its running `previous_EB`, `0`, or the
`end_bearing` of one of the walked units. -/
theorem calc3dAux_range : ∀ (l : List SoilUnit) (toe el prev : ℚ),
    calc3dAux toe el prev l = prev ∨ calc3dAux toe el prev l = 0 ∨
      ∃ u ∈ l, calc3dAux toe el prev l = u.end_bearing
  | [], _, _, _ => Or.inl rfl
  | u :: rest, toe, el, prev => by
    rw [calc3dAux_cons]
    by_cases h1 : toe < u.top_depth
    · rw [if_pos h1]
      exact Or.inl rfl
    · rw [if_neg h1]
      by_cases h2 : u.top_depth ≤ toe ∧ ltO toe ((rest.head?).map SoilUnit.top_depth)
      · rw [if_pos h2]
        by_cases h3 : toe - u.top_depth < el
        · rw [if_pos h3]
          by_cases h6 : prev < u.end_bearing ∧ 0 < u.end_bearing
          · rw [if_pos h6]
            exact Or.inl rfl
          · rw [if_neg h6]
            exact Or.inr (Or.inl rfl)
        · rw [if_neg h3]
          exact Or.inr (Or.inr ⟨u, List.mem_cons_self u rest, rfl⟩)
      · rw [if_neg h2]
        cases hb : (rest.head?).map SoilUnit.top_depth with
        | none =>
          rcases calc3dAux_range rest toe el prev with h | h | ⟨w, hw, he⟩
          · exact Or.inl h
          · exact Or.inr (Or.inl h)
          · exact Or.inr (Or.inr ⟨w, List.mem_cons_of_mem u hw, he⟩)
        | some bv =>
          dsimp only
          by_cases h4 : bv ≤ toe
          · rw [if_pos h4]
            by_cases h5 : el ≤ bv - u.top_depth
            · rw [if_pos h5]
              rcases calc3dAux_range rest toe el u.end_bearing with h | h | ⟨w, hw, he⟩
              · exact Or.inr (Or.inr ⟨u, List.mem_cons_self u rest, h⟩)
              · exact Or.inr (Or.inl h)
              · exact Or.inr (Or.inr ⟨w, List.mem_cons_of_mem u hw, he⟩)
            · rw [if_neg h5]
              by_cases h6 : prev < u.end_bearing ∧ 0 < u.end_bearing
              · rw [if_pos h6]
                rcases calc3dAux_range rest toe el prev with h | h | ⟨w, hw, he⟩
                · exact Or.inl h
                · exact Or.inr (Or.inl h)
                · exact Or.inr (Or.inr ⟨w, List.mem_cons_of_mem u hw, he⟩)
              · rw [if_neg h6]
                rcases calc3dAux_range rest toe el u.end_bearing with h | h | ⟨w, hw, he⟩
                · exact Or.inr (Or.inr ⟨u, List.mem_cons_self u rest, h⟩)
                · exact Or.inr (Or.inl h)
                · exact Or.inr (Or.inr ⟨w, List.mem_cons_of_mem u hw, he⟩)
          · rw [if_neg h4]
            rcases calc3dAux_range rest toe el prev with h | h | ⟨w, hw, he⟩
            · exact Or.inl h
            · exact Or.inr (Or.inl h)
            · exact Or.inr (Or.inr ⟨w, List.mem_cons_of_mem u hw, he⟩)

/-- The resolver keeps a non-negative result when its carried value and
all unit end bearings are non-negative. -/
theorem calc3dAux_nonneg : ∀ (l : List SoilUnit) (toe el prev : ℚ), 0 ≤ prev →
    (∀ u ∈ l, 0 ≤ u.end_bearing) → 0 ≤ calc3dAux toe el prev l
  | [], _, _, _, hprev, _ => hprev
  | u :: rest, toe, el, prev, hprev, heb => by
    have hebu : 0 ≤ u.end_bearing := heb u (List.mem_cons_self u rest)
    have hebr : ∀ w ∈ rest, 0 ≤ w.end_bearing :=
      fun w hw => heb w (List.mem_cons_of_mem u hw)
    rw [calc3dAux_cons]
    by_cases h1 : toe < u.top_depth
    · rwa [if_pos h1]
    · rw [if_neg h1]
      by_cases h2 : u.top_depth ≤ toe ∧ ltO toe ((rest.head?).map SoilUnit.top_depth)
      · rw [if_pos h2]
        by_cases h3 : toe - u.top_depth < el
        · rw [if_pos h3]
          by_cases h6 : prev < u.end_bearing ∧ 0 < u.end_bearing
          · rwa [if_pos h6]
          · rw [if_neg h6]
        · rwa [if_neg h3]
      · rw [if_neg h2]
        cases hb : (rest.head?).map SoilUnit.top_depth with
        | none => exact calc3dAux_nonneg rest toe el prev hprev hebr
        | some bv =>
          dsimp only
          by_cases h4 : bv ≤ toe
          · rw [if_pos h4]
            refine calc3dAux_nonneg rest toe el _ ?_ hebr
            by_cases h5 : el ≤ bv - u.top_depth
            · rwa [if_pos h5]
            · rw [if_neg h5]
              by_cases h6 : prev < u.end_bearing ∧ 0 < u.end_bearing
              · rwa [if_pos h6]
              · rwa [if_neg h6]
          · rw [if_neg h4]
            exact calc3dAux_nonneg rest toe el prev hprev hebr

/-- A successful unit search returns a member of the searched list. -/
theorem findUnit_mem : ∀ (su : List (SoilUnit × Option ℚ)) (x : ℚ) (u : SoilUnit),
    findUnit x su = some u → ∃ b, (u, b) ∈ su
  | [], x, u, h => by simp [findUnit] at h
  | (v, b) :: rest, x, u, h => by
    simp only [findUnit] at h
    by_cases hc : v.top_depth ≤ x ∧ ltO x b
    · rw [if_pos hc] at h
      cases h
      exact ⟨b, List.mem_cons_self _ _⟩
    · rw [if_neg hc] at h
      obtain ⟨b', hb'⟩ := findUnit_mem rest x u h
      exact ⟨b', List.mem_cons_of_mem _ hb'⟩

theorem mem_of_mem_withBottoms : ∀ (l : List SoilUnit) (u : SoilUnit) (b : Option ℚ),
    (u, b) ∈ withBottoms l → u ∈ l
  | [], u, b, h => by simp [withBottoms] at h
  | v :: rest, u, b, h => by
    rw [withBottoms] at h
    rcases List.mem_cons.mp h with heq | hmem
    · rw [List.mem_cons]
      exact Or.inl (congrArg Prod.fst heq)
    · exact List.mem_cons_of_mem v (mem_of_mem_withBottoms rest u b hmem)

theorem mem_normalizeUnits (units : List SoilUnit) (u : SoilUnit)
    (hu : u ∈ normalizeUnits units) : u = dummyUnit ∨ u ∈ units := by
  by_cases h : units ≠ [] ∧ ∀ v ∈ units, 0 < v.top_depth
  · rw [normalizeUnits_eq_dummy units h] at hu
    rcases List.mem_cons.mp hu with rfl | hmem
    · exact Or.inl rfl
    · exact Or.inr ((sortUnits_perm units).mem_iff.mp hmem)
  · rw [normalizeUnits_eq_sort units h] at hu
    exact Or.inr ((sortUnits_perm units).mem_iff.mp hu)

theorem normalized_sf_nonneg (units : List SoilUnit)
    (hsf : ∀ u ∈ units, 0 ≤ u.skin_friction) :
    ∀ u ∈ normalizeUnits units, 0 ≤ u.skin_friction := by
  intro u hu
  rcases mem_normalizeUnits units u hu with rfl | h
  · exact le_refl _
  · exact hsf u h

theorem normalized_eb_nonneg (units : List SoilUnit)
    (heb : ∀ u ∈ units, 0 ≤ u.end_bearing) :
    ∀ u ∈ normalizeUnits units, 0 ≤ u.end_bearing := by
  intro u hu
  rcases mem_normalizeUnits units u hu with rfl | h
  · exact le_refl _
  · exact heb u h

theorem toeUnit_mem (toe : ℚ) (su : List (SoilUnit × Option ℚ)) (u : SoilUnit)
    (h : toeUnit toe su = some u) : ∃ b, (u, b) ∈ su := by
  rw [toeUnit] at h
  cases hfind : findUnit toe su with
  | some v =>
    rw [hfind] at h
    cases h
    exact findUnit_mem su toe u hfind
  | none =>
    rw [hfind] at h
    cases hlast : su.getLast? with
    | none =>
      rw [hlast] at h
      cases h
    | some p =>
      rw [hlast] at h
      cases h
      exact ⟨p.2, List.mem_of_getLast?_eq_some hlast⟩

theorem totalFriction_nonneg (piV d L : ℚ) (su : List (SoilUnit × Option ℚ))
    (hpiV : 0 ≤ piV) (hd : 0 ≤ d)
    (hsf : ∀ u b, (u, b) ∈ su → 0 ≤ u.skin_friction) :
    0 ≤ totalFriction piV d L su := by
  rw [totalFriction]
  refine List.sum_nonneg ?_
  intro x hx
  obtain ⟨k, hk, rfl⟩ := List.mem_map.mp hx
  have hlen : 0 ≤ min (((k : ℚ) + 1) * increment) L - (k : ℚ) * increment := by
    have := segTop_le_segBot (List.mem_range.mp hk)
    linarith
  simp only [segFriction]
  cases hfind : findUnit (((k : ℚ) * increment + min (((k : ℚ) + 1) * increment) L) / 2) su with
  | none => exact le_refl 0
  | some u =>
    obtain ⟨b, hb⟩ := findUnit_mem su _ u hfind
    exact mul_nonneg (mul_nonneg (hsf u b hb) (mul_nonneg hpiV hd)) hlen

/-! ## C6: linearity in the reduction factor -/

/-- C6: the total capacity is `(skin_friction_component +
end_bearing_component) * reduction_factor`, where neither component is a
function of the reduction factor, and consequently
`capacity(rf) = rf * capacity(1)` for every `rf` in `[0, 1]`. -/
theorem c6_reduction_factor_linearity (piV d L : ℚ) (units : List SoilUnit)
    (rf : ℚ) (threeD skinOnly : Bool) (_h0 : 0 ≤ rf) (_h1 : rf ≤ 1) :
    calculate_capacity piV d L units rf threeD skinOnly =
      (totalFriction piV d L (withBottoms (normalizeUnits units))
        + (if skinOnly then 0 else endBearingComp piV d L (normalizeUnits units) threeD)) * rf
    ∧ calculate_capacity piV d L units rf threeD skinOnly =
      rf * calculate_capacity piV d L units 1 threeD skinOnly := by
  refine ⟨rfl, ?_⟩
  unfold calculate_capacity
  ring

/-- Witness for C6 at `rf = 1` on a one-unit profile. -/
theorem c6_reduction_factor_linearity_witness :
    ((0 : ℚ) ≤ 1 ∧ (1 : ℚ) ≤ 1) ∧
    (calculate_capacity 3 1 2 [⟨0, 1, 2⟩] 1 false false =
      (totalFriction 3 1 2 (withBottoms (normalizeUnits [⟨0, 1, 2⟩]))
        + (if false then 0 else endBearingComp 3 1 2 (normalizeUnits [⟨0, 1, 2⟩]) false)) * 1
    ∧ calculate_capacity 3 1 2 [⟨0, 1, 2⟩] 1 false false =
      1 * calculate_capacity 3 1 2 [⟨0, 1, 2⟩] 1 false false) :=
  ⟨⟨by decide, by decide⟩,
    c6_reduction_factor_linearity 3 1 2 [⟨0, 1, 2⟩] 1 false false (by decide) (by decide)⟩

/-! ## C7: the code performs no input validation (corrected claim) -/

theorem segFriction_zero_diameter (piV L : ℚ) (su : List (SoilUnit × Option ℚ)) (k : ℕ) :
    segFriction piV 0 L su k = 0 := by
  simp only [segFriction]
  cases hfind : findUnit (((k : ℚ) * increment + min (((k : ℚ) + 1) * increment) L) / 2) su with
  | none => rfl
  | some u => ring

theorem totalFriction_zero_diameter (piV L : ℚ) (su : List (SoilUnit × Option ℚ)) :
    totalFriction piV 0 L su = 0 := by
  rw [totalFriction]
  refine List.sum_eq_zero ?_
  intro x hx
  obtain ⟨k, _, rfl⟩ := List.mem_map.mp hx
  exact segFriction_zero_diameter piV L su k

theorem endBearingComp_zero_diameter (piV L : ℚ) (sorted_units : List SoilUnit)
    (threeD : Bool) : endBearingComp piV 0 L sorted_units threeD = 0 := by
  rw [endBearingComp]
  cases toeUnit L (withBottoms sorted_units) with
  | none => rfl
  | some tu =>
    dsimp only
    have harea : piV * ((0 : ℚ) / 2) ^ 2 = 0 := by norm_num
    rw [harea, mul_zero]

theorem capacity_zero_diameter (piV L : ℚ) (units : List SoilUnit) (rf : ℚ)
    (threeD skinOnly : Bool) : calculate_capacity piV 0 L units rf threeD skinOnly = 0 := by
  simp only [calculate_capacity]
  rw [totalFriction_zero_diameter, endBearingComp_zero_diameter]
  cases skinOnly <;> simp

/-- C7 counterexample: at the invalid geometry `diameter = 0` (claimed to
raise `InvalidGeometryError`), `calculate_capacity` computes and returns
the silently zero value `0` — no error path exists in the code. -/
theorem c7_counterexample : calculate_capacity 3 0 10 [⟨0, 5, 100⟩] 1 false false = 0 :=
  capacity_zero_diameter 3 10 [⟨0, 5, 100⟩] 1 false false

/-- C7 amended: `calculate_capacity` performs no input validation and can
raise no error; it is a total function on all inputs, and in particular
the invalid geometry `diameter = 0` silently yields capacity `0` for
every length, unit list, reduction factor and flag combination, instead
of being refused. -/
theorem c7_no_validation_silently_zero (piV L : ℚ) (units : List SoilUnit) (rf : ℚ)
    (threeD skinOnly : Bool) : calculate_capacity piV 0 L units rf threeD skinOnly = 0 :=
  capacity_zero_diameter piV L units rf threeD skinOnly

/-! ## C8: monotonicity in length (corrected claim) -/

/-- The contribution of segment `k` for any length on the half-metre grid
beyond this segment: the segment is never truncated. -/
def gridSegTerm (piV d : ℚ) (su : List (SoilUnit × Option ℚ)) (k : ℕ) : ℚ :=
  match findUnit (((k : ℚ) * increment + ((k : ℚ) + 1) * increment) / 2) su with
  | some u => u.skin_friction * (piV * d) * (((k : ℚ) + 1) * increment - (k : ℚ) * increment)
  | none => 0

theorem numSegments_grid (m : ℕ) : numSegments ((m : ℚ) * increment) = m := by
  rw [numSegments,
    mul_div_cancel_right₀ ((m : ℚ)) (by norm_num [increment] : (increment : ℚ) ≠ 0),
    Int.ceil_natCast]
  exact Int.toNat_ofNat m

theorem totalFriction_grid (piV d : ℚ) (su : List (SoilUnit × Option ℚ)) (m : ℕ) :
    totalFriction piV d ((m : ℚ) * increment) su =
      ((List.range m).map (gridSegTerm piV d su)).sum := by
  rw [totalFriction, numSegments_grid]
  refine congrArg List.sum (List.map_congr_left ?_)
  intro k hk
  have hkm : k < m := List.mem_range.mp hk
  have hcast : (k : ℚ) + 1 ≤ (m : ℚ) := by exact_mod_cast Nat.succ_le_of_lt hkm
  have hmin : min (((k : ℚ) + 1) * increment) ((m : ℚ) * increment) =
      ((k : ℚ) + 1) * increment :=
    min_eq_left (mul_le_mul_of_nonneg_right hcast (by norm_num [increment]))
  simp only [segFriction, gridSegTerm, hmin]

theorem gridSegTerm_nonneg (piV d : ℚ) (su : List (SoilUnit × Option ℚ))
    (hpiV : 0 ≤ piV) (hd : 0 ≤ d)
    (hsf : ∀ u b, (u, b) ∈ su → 0 ≤ u.skin_friction) (k : ℕ) :
    0 ≤ gridSegTerm piV d su k := by
  rw [gridSegTerm]
  cases hfind : findUnit (((k : ℚ) * increment + ((k : ℚ) + 1) * increment) / 2) su with
  | none => exact le_refl 0
  | some u =>
    obtain ⟨b, hb⟩ := findUnit_mem su _ u hfind
    have hlen : (0 : ℚ) ≤ ((k : ℚ) + 1) * increment - (k : ℚ) * increment := by
      have h1 : ((k : ℚ) + 1) * increment - (k : ℚ) * increment = increment := by ring
      rw [h1]
      norm_num [increment]
    exact mul_nonneg (mul_nonneg (hsf u b hb) (mul_nonneg hpiV hd)) hlen

theorem totalFriction_grid_mono (piV d : ℚ) (su : List (SoilUnit × Option ℚ))
    (hpiV : 0 ≤ piV) (hd : 0 ≤ d)
    (hsf : ∀ u b, (u, b) ∈ su → 0 ≤ u.skin_friction)
    (m1 m2 : ℕ) (h12 : m1 ≤ m2) :
    totalFriction piV d ((m1 : ℚ) * increment) su ≤
      totalFriction piV d ((m2 : ℚ) * increment) su := by
  induction m2, h12 using Nat.le_induction with
  | base => exact le_refl _
  | succ n hn ih =>
    refine le_trans ih ?_
    rw [totalFriction_grid piV d su n, totalFriction_grid piV d su (n + 1),
      List.range_succ, List.map_append, List.sum_append]
    have hterm : 0 ≤ gridSegTerm piV d su n := gridSegTerm_nonneg piV d su hpiV hd hsf n
    simp only [List.map_cons, List.map_nil, List.sum_cons, List.sum_nil, add_zero]
    linarith

/-- C8 counterexample: capacity is not monotone in length.  With the
profile `[⟨0, 100, 0⟩, ⟨0.22, 0, 0⟩]`, `diameter = 1`,
`reduction_factor = 1`, `skin_friction_only = true`, the capacity at
`length = 0.4` exceeds the capacity at `length = 0.5` for every positive
value of the pi constant: the single segment's midpoint moves from
`0.2` (inside the strong layer) to `0.25` (inside the zero layer). -/
theorem c8_counterexample :
    ¬ (∀ piV : ℚ, 0 < piV →
      calculate_capacity piV 1 (2/5) [⟨0, 100, 0⟩, ⟨11/50, 0, 0⟩] 1 false true ≤
        calculate_capacity piV 1 (1/2) [⟨0, 100, 0⟩, ⟨11/50, 0, 0⟩] 1 false true) := by
  intro h
  have h3 := h 3 (by norm_num)
  have hceil1 : (⌈(2/5 : ℚ) / increment⌉ : ℤ) = 1 := by
    norm_num [increment, Int.ceil_eq_iff]
  have hseg1 : numSegments (2/5) = 1 := by
    rw [numSegments, hceil1]
    rfl
  have hceil2 : (⌈(1/2 : ℚ) / increment⌉ : ℤ) = 1 := by
    norm_num [increment, Int.ceil_eq_iff]
  have hseg2 : numSegments (1/2) = 1 := by
    rw [numSegments, hceil2]
    rfl
  have e1 : calculate_capacity 3 1 (2/5) [⟨0, 100, 0⟩, ⟨11/50, 0, 0⟩] 1 false true = 120 := by
    norm_num [calculate_capacity, totalFriction, hseg1, segFriction, findUnit, increment,
      normalizeUnits, sortUnits, List.insertionSort, List.orderedInsert, leTop, withBottoms,
      ltO, List.range_succ]
  have e2 : calculate_capacity 3 1 (1/2) [⟨0, 100, 0⟩, ⟨11/50, 0, 0⟩] 1 false true = 0 := by
    norm_num [calculate_capacity, totalFriction, hseg2, segFriction, findUnit, increment,
      normalizeUnits, sortUnits, List.insertionSort, List.orderedInsert, leTop, withBottoms,
      ltO, List.range_succ]
  rw [e1, e2] at h3
  norm_num at h3

/-- C8 amended: with `skin_friction_only = true`, non-negative
`skin_friction` values, and diameter, reduction factor and pi constant
taken from their admissible (non-negative) domains, the capacity is
non-decreasing in length along the half-metre segment grid: for lengths
`m1 * 0.5 ≤ m2 * 0.5` the capacity at the former is at most the capacity
at the latter.  (Monotonicity fails for general, off-grid lengths, as
the counterexample shows: a truncated final segment can sample a
stronger layer than the grid segment that replaces it.) -/
theorem c8_monotone_on_grid (piV d rf : ℚ) (units : List SoilUnit) (threeD : Bool)
    (m1 m2 : ℕ) (hpiV : 0 ≤ piV) (hd : 0 ≤ d) (hrf : 0 ≤ rf)
    (hsf : ∀ u ∈ units, 0 ≤ u.skin_friction) (h12 : m1 ≤ m2) :
    calculate_capacity piV d ((m1 : ℚ) * increment) units rf threeD true ≤
      calculate_capacity piV d ((m2 : ℚ) * increment) units rf threeD true := by
  have hsu : ∀ u b, (u, b) ∈ withBottoms (normalizeUnits units) → 0 ≤ u.skin_friction :=
    fun u b hb => normalized_sf_nonneg units hsf u (mem_of_mem_withBottoms _ u b hb)
  have hmono := totalFriction_grid_mono piV d (withBottoms (normalizeUnits units))
    hpiV hd hsu m1 m2 h12
  simp only [calculate_capacity, if_true, add_zero]
  exact mul_le_mul_of_nonneg_right hmono hrf

/-- Witness for C8 (amended) at `m1 = 1 ≤ m2 = 3` on a one-unit profile. -/
theorem c8_monotone_on_grid_witness :
    ((0 : ℚ) ≤ 3 ∧ (0 : ℚ) ≤ 1 ∧ (0 : ℚ) ≤ 1 ∧
      (∀ u ∈ ([⟨0, 10, 100⟩] : List SoilUnit), 0 ≤ u.skin_friction) ∧ 1 ≤ 3) ∧
    calculate_capacity 3 1 ((1 : ℕ) * increment) [⟨0, 10, 100⟩] 1 false true ≤
      calculate_capacity 3 1 ((3 : ℕ) * increment) [⟨0, 10, 100⟩] 1 false true :=
  ⟨⟨by decide, by decide, by decide, by decide, by decide⟩,
    c8_monotone_on_grid 3 1 1 [⟨0, 10, 100⟩] false 1 3 (by decide) (by decide) (by decide)
      (by decide) (by decide)⟩

/-! ## C10: totality, non-negativity and the range of the resolver -/

/-- C10: on admissible inputs (`diameter > 0`, `length > 0`,
`reduction_factor ≥ 0`, non-negative layer attributes, and the positive
pi constant) the computation is total by construction — every branch,
including the empty unit list, produces a value — the returned capacity
is non-negative, and the 3D-embedment resolver's effective end bearing
is either `0` or the `end_bearing` of some layer of the normalized
profile. -/
theorem c10_safety (piV d L rf : ℚ) (units : List SoilUnit) (threeD skinOnly : Bool)
    (hpiV : 0 ≤ piV) (hd : 0 < d) (_hL : 0 < L) (hrf : 0 ≤ rf)
    (hunits : ∀ u ∈ units, 0 ≤ u.top_depth ∧ 0 ≤ u.skin_friction ∧ 0 ≤ u.end_bearing) :
    0 ≤ calculate_capacity piV d L units rf threeD skinOnly ∧
    (calculate_3d_embedment_eb L d (normalizeUnits units) = 0 ∨
      ∃ u ∈ normalizeUnits units,
        calculate_3d_embedment_eb L d (normalizeUnits units) = u.end_bearing) := by
  have heb : ∀ u ∈ normalizeUnits units, 0 ≤ u.end_bearing :=
    normalized_eb_nonneg units (fun u hu => (hunits u hu).2.2)
  constructor
  · have htf : 0 ≤ totalFriction piV d L (withBottoms (normalizeUnits units)) := by
      refine totalFriction_nonneg piV d L _ hpiV (le_of_lt hd) ?_
      intro u b hb
      exact normalized_sf_nonneg units (fun v hv => (hunits v hv).2.1) u
        (mem_of_mem_withBottoms _ u b hb)
    have harea : 0 ≤ piV * (d / 2) ^ 2 := mul_nonneg hpiV (sq_nonneg _)
    have hebc : 0 ≤ (if skinOnly then 0
        else endBearingComp piV d L (normalizeUnits units) threeD) := by
      cases skinOnly with
      | true => exact le_refl 0
      | false =>
        rw [if_neg (by simp)]
        rw [endBearingComp]
        cases htoe : toeUnit L (withBottoms (normalizeUnits units)) with
        | none => exact le_refl 0
        | some tu =>
          refine mul_nonneg ?_ harea
          cases threeD with
          | true =>
            rw [if_pos rfl, calculate_3d_embedment_eb]
            exact calc3dAux_nonneg (normalizeUnits units) L (3 * d) 0 (le_refl 0) heb
          | false =>
            rw [if_neg (by simp)]
            obtain ⟨b, hb⟩ := toeUnit_mem L _ tu htoe
            exact heb tu (mem_of_mem_withBottoms _ tu b hb)
    exact mul_nonneg (add_nonneg htf hebc) hrf
  · rw [calculate_3d_embedment_eb]
    rcases calc3dAux_range (normalizeUnits units) L (3 * d) 0 with h | h | hex
    · exact Or.inl h
    · exact Or.inl h
    · exact Or.inr hex

/-- Witness for C10 in 3D-embedment mode on a one-unit profile. -/
theorem c10_safety_witness :
    ((0 : ℚ) ≤ 3 ∧ (0 : ℚ) < 1 ∧ (0 : ℚ) < 4 ∧ (0 : ℚ) ≤ 1 ∧
      (∀ u ∈ ([⟨0, 10, 100⟩] : List SoilUnit),
        0 ≤ u.top_depth ∧ 0 ≤ u.skin_friction ∧ 0 ≤ u.end_bearing)) ∧
    (0 ≤ calculate_capacity 3 1 4 [⟨0, 10, 100⟩] 1 true false ∧
      (calculate_3d_embedment_eb 4 1 (normalizeUnits [⟨0, 10, 100⟩]) = 0 ∨
        ∃ u ∈ normalizeUnits [⟨0, 10, 100⟩],
          calculate_3d_embedment_eb 4 1 (normalizeUnits [⟨0, 10, 100⟩]) = u.end_bearing)) :=
  ⟨⟨by decide, by decide, by decide, by decide, by decide⟩,
    c10_safety 3 1 4 1 [⟨0, 10, 100⟩] true false (by decide) (by decide) (by decide)
      (by decide) (by decide)⟩

/-! ## C9: the mutation model

`calculate_capacity` receives the caller's list of layer dicts.
`sorted(units, ...)` builds a new list of the *same* dict objects, and
lines 239-243 then assign `sorted_units[i]["bottom_depth"]` on them, so
the caller's records are mutated.  We model a dict as a `LayerRec` whose
`bottom_depth : Option (Option ℚ)` marks key presence (`none`: the dict
has no `bottom_depth` key; `some b`: the key is present with value `b`,
itself `none` for `float("inf")`).  Object identity is modelled by the
record's index in the caller's store; a cell `(some i, r)` is the dict
at index `i`, and `(none, r)` is the freshly created `Dummy` dict. -/

/-- A caller-side layer record (a Python dict). -/
structure LayerRec where
  name : String
  top_depth : ℚ
  skin_friction : ℚ
  end_bearing : ℚ
  bottom_depth : Option (Option ℚ)
deriving DecidableEq

/-- The numeric projection of a record, as consumed by the capacity
computation. -/
def projRec (r : LayerRec) : SoilUnit :=
  ⟨r.top_depth, r.skin_friction, r.end_bearing⟩

/-- The four caller-supplied fields of a record (everything except the
derived `bottom_depth` key). -/
def coreRec (r : LayerRec) : String × ℚ × ℚ × ℚ :=
  (r.name, r.top_depth, r.skin_friction, r.end_bearing)

/-- The fresh `Dummy` dict of app.py lines 229-237. -/
def dummyRec : LayerRec := ⟨"Dummy", 0, 0, 0, none⟩

/-- Sort order on cells: by the record's `top_depth`. -/
def leCell (a b : Option ℕ × LayerRec) : Prop := a.2.top_depth ≤ b.2.top_depth

instance : DecidableRel leCell :=
  fun x y => inferInstanceAs (Decidable (x.2.top_depth ≤ y.2.top_depth))

instance : IsTotal (Option ℕ × LayerRec) leCell :=
  ⟨fun a b => le_total a.2.top_depth b.2.top_depth⟩

instance : IsTrans (Option ℕ × LayerRec) leCell := ⟨fun _ _ _ h h' => le_trans h h'⟩

/-- The caller's list of dicts, with each dict tagged by its identity. -/
def enumCells (store : List LayerRec) : List (Option ℕ × LayerRec) :=
  store.enum.map (fun p => (some p.1, p.2))

/-- Model of `sorted(units, key=...)`: a new list of the same dict references. -/
def sortedCells (store : List LayerRec) : List (Option ℕ × LayerRec) :=
  List.insertionSort leCell (enumCells store)

/-- app.py lines 227-237 on cells: conditional insertion of a fresh
`Dummy` dict. -/
def normalizeCells (store : List LayerRec) : List (Option ℕ × LayerRec) :=
  match sortedCells store with
  | [] => []
  | c :: rest => if 0 < c.2.top_depth then (none, dummyRec) :: c :: rest else c :: rest

/-- app.py lines 239-243 on cells: assign `bottom_depth` on every dict in
the sorted list (the mutation). -/
def setBottoms : List (Option ℕ × LayerRec) → List (Option ℕ × LayerRec)
  | [] => []
  | (i, r) :: rest =>
    (i, { r with bottom_depth := some ((rest.head?).map (fun c => c.2.top_depth)) }) ::
      setBottoms rest

/-- The caller's store after the call: each dict at index `i` is the
mutated record carrying that identity in the assigned sorted list. -/
def storeAfter (store : List LayerRec) : List LayerRec :=
  (List.range store.length).map (fun i =>
    match (setBottoms (normalizeCells store)).find? (fun c => c.1 == some i) with
    | some c => c.2
    | none => dummyRec)

/-- Definition `calculate_capacity` on the caller's dicts, returning the capacity
together with the caller's store after the call. -/
def calc_capacity_state (piV diameter length : ℚ) (store : List LayerRec)
    (reduction_factor : ℚ) (three_d_embed skin_friction_only : Bool) : ℚ × List LayerRec :=
  let assigned := setBottoms (normalizeCells store)
  let su := assigned.map (fun c => (projRec c.2, (c.2.bottom_depth).getD none))
  let sortedU := assigned.map (fun c => projRec c.2)
  let total_friction := totalFriction piV diameter length su
  let end_bearing :=
    if skin_friction_only then 0
    else
      match toeUnit length su with
      | none => 0
      | some tu =>
        (if three_d_embed then calculate_3d_embedment_eb length diameter sortedU
         else tu.end_bearing) * (piV * (diameter / 2) ^ 2)
  ((total_friction + end_bearing) * reduction_factor, storeAfter store)

/-! ### Refinement of the state model onto the pure model -/

theorem setBottoms_su : ∀ (l : List (Option ℕ × LayerRec)),
    (setBottoms l).map (fun c => (projRec c.2, (c.2.bottom_depth).getD none)) =
      withBottoms (l.map (fun c => projRec c.2))
  | [] => rfl
  | (i, r) :: rest => by
    rw [setBottoms, List.map_cons, List.map_cons, withBottoms, setBottoms_su rest]
    refine congrArg (fun z => (projRec r, z) :: withBottoms (rest.map fun c => projRec c.2)) ?_
    rw [List.head?_map, Option.map_map]
    cases rest.head? with
    | none => rfl
    | some c => rfl

theorem setBottoms_proj : ∀ (l : List (Option ℕ × LayerRec)),
    (setBottoms l).map (fun c => projRec c.2) = l.map (fun c => projRec c.2)
  | [] => rfl
  | (i, r) :: rest => by
    rw [setBottoms, List.map_cons, List.map_cons, setBottoms_proj rest]
    rfl

theorem setBottoms_idcore : ∀ (l : List (Option ℕ × LayerRec)),
    (setBottoms l).map (fun c => (c.1, coreRec c.2)) = l.map (fun c => (c.1, coreRec c.2))
  | [] => rfl
  | (i, r) :: rest => by
    rw [setBottoms, List.map_cons, List.map_cons, setBottoms_idcore rest]
    rfl

theorem enumCells_proj (store : List LayerRec) :
    (enumCells store).map (fun c => projRec c.2) = store.map projRec := by
  rw [enumCells, List.map_map]
  have h : ((fun c : Option ℕ × LayerRec => projRec c.2) ∘ fun p : ℕ × LayerRec => (some p.1, p.2))
      = (projRec ∘ Prod.snd) := rfl
  rw [h, ← List.map_map, List.enum_map_snd]

theorem sortedCells_proj (store : List LayerRec) :
    (sortedCells store).map (fun c => projRec c.2) = sortUnits (store.map projRec) := by
  rw [sortedCells, sortUnits,
    List.map_insertionSort leCell leTop (fun c => projRec c.2) (enumCells store)
      (fun a _ b _ => Iff.rfl),
    enumCells_proj]

theorem normalizeCells_proj (store : List LayerRec) :
    (normalizeCells store).map (fun c => projRec c.2) = normalizeUnits (store.map projRec) := by
  rw [normalizeCells, normalizeUnits]
  cases hsc : sortedCells store with
  | nil =>
    have h3 := sortedCells_proj store
    rw [hsc] at h3
    rw [← h3]
    rfl
  | cons c rest =>
    have h3 := sortedCells_proj store
    rw [hsc, List.map_cons] at h3
    rw [← h3]
    dsimp only
    by_cases h : 0 < c.2.top_depth
    · rw [if_pos h, if_pos (show 0 < (projRec c.2).top_depth from h)]
      rfl
    · rw [if_neg h, if_neg (show ¬0 < (projRec c.2).top_depth from h)]
      rfl

theorem calc_capacity_state_fst (piV d L : ℚ) (store : List LayerRec) (rf : ℚ)
    (threeD skinOnly : Bool) :
    (calc_capacity_state piV d L store rf threeD skinOnly).1 =
      calculate_capacity piV d L (store.map projRec) rf threeD skinOnly := by
  have hsu : (setBottoms (normalizeCells store)).map
      (fun c => (projRec c.2, (c.2.bottom_depth).getD none)) =
      withBottoms (normalizeUnits (store.map projRec)) := by
    rw [setBottoms_su, normalizeCells_proj]
  have hsortedU : (setBottoms (normalizeCells store)).map (fun c => projRec c.2) =
      normalizeUnits (store.map projRec) := by
    rw [setBottoms_proj, normalizeCells_proj]
  simp only [calc_capacity_state, calculate_capacity, endBearingComp, hsu, hsortedU]

/-! ### The caller's store after the call -/

theorem projRec_eq_of_core {a b : LayerRec} (h : coreRec a = coreRec b) :
    projRec a = projRec b := by
  have h1 := congrArg (fun q : String × ℚ × ℚ × ℚ => q.2.1) h
  have h2 := congrArg (fun q : String × ℚ × ℚ × ℚ => q.2.2.1) h
  have h3 := congrArg (fun q : String × ℚ × ℚ × ℚ => q.2.2.2) h
  simp only [coreRec] at h1 h2 h3
  simp only [projRec, h1, h2, h3]

theorem name_eq_of_core {a b : LayerRec} (h : coreRec a = coreRec b) : a.name = b.name :=
  congrArg (fun q : String × ℚ × ℚ × ℚ => q.1) h

theorem mem_normalizeCells_of_mem_sorted (store : List LayerRec)
    (c : Option ℕ × LayerRec) (hc : c ∈ sortedCells store) : c ∈ normalizeCells store := by
  rw [normalizeCells]
  cases hsc : sortedCells store with
  | nil =>
    rw [hsc] at hc
    exact absurd hc (List.not_mem_nil c)
  | cons c0 rest =>
    rw [hsc] at hc
    dsimp only
    by_cases h : 0 < c0.2.top_depth
    · rw [if_pos h]
      exact List.mem_cons_of_mem _ hc
    · rw [if_neg h]
      exact hc

theorem mem_normalizeCells (store : List LayerRec) (c : Option ℕ × LayerRec)
    (hc : c ∈ normalizeCells store) : c = (none, dummyRec) ∨ c ∈ enumCells store := by
  rw [normalizeCells] at hc
  have hperm := List.perm_insertionSort leCell (enumCells store)
  cases hsc : sortedCells store with
  | nil =>
    rw [hsc] at hc
    exact absurd hc (List.not_mem_nil c)
  | cons c0 rest =>
    rw [hsc] at hc
    dsimp only at hc
    rw [sortedCells] at hsc
    rw [hsc] at hperm
    by_cases h : 0 < c0.2.top_depth
    · rw [if_pos h] at hc
      rcases List.mem_cons.mp hc with rfl | hmem
      · exact Or.inl rfl
      · exact Or.inr (hperm.mem_iff.mp hmem)
    · rw [if_neg h] at hc
      exact Or.inr (hperm.mem_iff.mp hc)

theorem setBottoms_id_mem : ∀ (l : List (Option ℕ × LayerRec)) (j : Option ℕ) (r : LayerRec),
    (j, r) ∈ l → ∃ r2, (j, r2) ∈ setBottoms l
  | [], j, r, h => absurd h (List.not_mem_nil (j, r))
  | (i0, r0) :: rest, j, r, h => by
    rw [setBottoms]
    rcases List.mem_cons.mp h with heq | hmem
    · have hj : j = i0 := congrArg Prod.fst heq
      subst hj
      exact ⟨{ r0 with bottom_depth := some ((rest.head?).map (fun c => c.2.top_depth)) },
        List.mem_cons_self _ _⟩
    · obtain ⟨r2, h2⟩ := setBottoms_id_mem rest j r hmem
      exact ⟨r2, List.mem_cons_of_mem _ h2⟩

theorem assigned_core_of_id (store : List LayerRec) (i : ℕ) (r : LayerRec)
    (hmem : (some i, r) ∈ setBottoms (normalizeCells store)) :
    ∃ r0, store[i]? = some r0 ∧ coreRec r = coreRec r0 := by
  have h1 : ((some i : Option ℕ), coreRec r) ∈
      (setBottoms (normalizeCells store)).map (fun c => (c.1, coreRec c.2)) :=
    List.mem_map_of_mem (fun c => (c.1, coreRec c.2)) hmem
  rw [setBottoms_idcore] at h1
  obtain ⟨c, hc, hceq⟩ := List.mem_map.mp h1
  have hc1 : c.1 = some i := congrArg Prod.fst hceq
  have hc2 : coreRec c.2 = coreRec r := congrArg Prod.snd hceq
  rcases mem_normalizeCells store c hc with rfl | henum
  · exact absurd hc1 (by simp)
  · rw [enumCells] at henum
    obtain ⟨p, hp, hpe⟩ := List.mem_map.mp henum
    have hp1 : some p.1 = some i := by
      rw [← hc1]
      exact congrArg Prod.fst hpe
    have hp2 : p.2 = c.2 := congrArg Prod.snd hpe
    have hpi : p.1 = i := Option.some.inj hp1
    have hget : store[p.1]? = some p.2 := List.mem_enum_iff_getElem?.mp hp
    refine ⟨p.2, by rw [← hpi]; exact hget, ?_⟩
    rw [← hc2, hp2]

theorem storeAfter_length (store : List LayerRec) :
    (storeAfter store).length = store.length := by
  simp [storeAfter]

theorem storeAfter_spec (store : List LayerRec) (i : ℕ) (hi : i < store.length) :
    ∃ r r0, (storeAfter store)[i]? = some r ∧ store[i]? = some r0 ∧
      coreRec r = coreRec r0 := by
  cases hr0 : store[i]? with
  | none =>
    rw [List.getElem?_eq_none_iff] at hr0
    exact absurd hr0 (not_le.mpr hi)
  | some r0 =>
    have hmem0 : ((i, r0) : ℕ × LayerRec) ∈ store.enum :=
      List.mk_mem_enum_iff_getElem?.mpr hr0
    have hmem1 : ((some i : Option ℕ), r0) ∈ enumCells store :=
      List.mem_map_of_mem (fun p : ℕ × LayerRec => ((some p.1 : Option ℕ), p.2)) hmem0
    have hmem2 : ((some i : Option ℕ), r0) ∈ sortedCells store :=
      (List.perm_insertionSort leCell (enumCells store)).mem_iff.mpr hmem1
    have hmem3 := mem_normalizeCells_of_mem_sorted store _ hmem2
    obtain ⟨r2, hr2⟩ := setBottoms_id_mem (normalizeCells store) (some i) r0 hmem3
    have hfindsome : ((setBottoms (normalizeCells store)).find?
        (fun c => c.1 == some i)).isSome := by
      rw [List.find?_isSome]
      exact ⟨(some i, r2), hr2, by simp⟩
    obtain ⟨c, hc⟩ := Option.isSome_iff_exists.mp hfindsome
    obtain ⟨i1, r1⟩ := c
    have hpred : i1 = some i := by
      have := List.find?_some hc
      simpa using this
    subst hpred
    obtain ⟨r0', hr0', hcore⟩ :=
      assigned_core_of_id store i r1 (List.mem_of_find?_eq_some hc)
    rw [hr0] at hr0'
    have heq0 : r0' = r0 := (Option.some.inj hr0').symm
    refine ⟨r1, r0, ?_, rfl, by rw [heq0] at hcore; exact hcore⟩
    rw [storeAfter, List.getElem?_map, List.getElem?_range hi, Option.map_some', hc]

theorem storeAfter_map_proj (store : List LayerRec) :
    (storeAfter store).map projRec = store.map projRec := by
  refine List.ext_getElem? ?_
  intro i
  rw [List.getElem?_map, List.getElem?_map]
  by_cases hi : i < store.length
  · obtain ⟨r, r0, h1, h2, hcore⟩ := storeAfter_spec store i hi
    rw [h1, h2, Option.map_some', Option.map_some', projRec_eq_of_core hcore]
  · rw [List.getElem?_eq_none (by rw [storeAfter_length]; exact le_of_not_lt hi),
      List.getElem?_eq_none (le_of_not_lt hi)]

theorem storeAfter_map_name (store : List LayerRec) :
    (storeAfter store).map LayerRec.name = store.map LayerRec.name := by
  refine List.ext_getElem? ?_
  intro i
  rw [List.getElem?_map, List.getElem?_map]
  by_cases hi : i < store.length
  · obtain ⟨r, r0, h1, h2, hcore⟩ := storeAfter_spec store i hi
    rw [h1, h2, Option.map_some', Option.map_some', name_eq_of_core hcore]
  · rw [List.getElem?_eq_none (by rw [storeAfter_length]; exact le_of_not_lt hi),
      List.getElem?_eq_none (le_of_not_lt hi)]

/-! ### C9 results -/

/-- C9 counterexample: the computation mutates its input.  On the
single-record store whose dict has no `bottom_depth` key, the caller's
record after the call differs from the record before it: a
`bottom_depth` key (with value `+∞`) has been added. -/
theorem c9_counterexample :
    (calc_capacity_state 3 1 2 [⟨"Unit 1", 0, 5, 100, none⟩] 1 false false).2 ≠
      [⟨"Unit 1", 0, 5, 100, none⟩] := by decide

/-- C9 amended: `calculate_capacity` mutates the caller's layer records
exactly by writing their `bottom_depth` entries; the `name`,
`top_depth`, `skin_friction` and `end_bearing` fields and the number of
records are unchanged, the returned capacity is a pure function of those
fields (it refines the stateless model), and a repeated call on the
mutated store returns the identical capacity — there is no other hidden
state. -/
theorem c9_mutation_characterized (piV d L : ℚ) (store : List LayerRec) (rf : ℚ)
    (threeD skinOnly : Bool) :
    ((calc_capacity_state piV d L store rf threeD skinOnly).2.map projRec =
      store.map projRec)
    ∧ ((calc_capacity_state piV d L store rf threeD skinOnly).2.map LayerRec.name =
      store.map LayerRec.name)
    ∧ ((calc_capacity_state piV d L store rf threeD skinOnly).2.length = store.length)
    ∧ ((calc_capacity_state piV d L
          ((calc_capacity_state piV d L store rf threeD skinOnly).2) rf threeD skinOnly).1 =
        (calc_capacity_state piV d L store rf threeD skinOnly).1)
    ∧ ((calc_capacity_state piV d L store rf threeD skinOnly).1 =
        calculate_capacity piV d L (store.map projRec) rf threeD skinOnly) := by
  have hsnd : (calc_capacity_state piV d L store rf threeD skinOnly).2 = storeAfter store := rfl
  refine ⟨?_, ?_, ?_, ?_, calc_capacity_state_fst piV d L store rf threeD skinOnly⟩
  · rw [hsnd]
    exact storeAfter_map_proj store
  · rw [hsnd]
    exact storeAfter_map_name store
  · rw [hsnd]
    exact storeAfter_length store
  · rw [calc_capacity_state_fst, calc_capacity_state_fst, hsnd, storeAfter_map_proj]

end PileCalc
